import Mathlib

/-!
Verification of the polyglot scoring core (`src/max_heap.py`, `src/main.py`).

`max_heap.py` wraps Python's `heapq` module: the backing list `self.items`
stores tuples `(-k, v)` with `k : int` the score and `v : str` the language
name, and `heapq` maintains a min-heap under Python's lexicographic tuple
order (first the integer, then the string).  `heapq`'s observable contract —
`heappush` adds one element, `heappop` removes and returns the least element
under that order — is embedded here by keeping the backing list sorted:
`heappush` is ordered insertion and `heappop` takes the head.  The multiset
of stored elements and the element returned by each pop are exactly those of
the Python program.

`main.py`'s engine functions (`feature_diff`, `compute_scores`,
`print_scores`) are translated directly; `print_scores` returns the list of
names it prints, and a raised `IndexError` is modeled as `Except.error`.
-/

namespace Polyglot

/-- Python's `<` on strings: lexicographic comparison of the code-point
sequences (embedded over `String.data`, the list of characters). -/
def strLt (s t : String) : Prop := s.data < t.data

/-- Python's `<=` on strings: strictly less, or equal. -/
def strLe (s t : String) : Prop := strLt s t ∨ s = t

instance (s t : String) : Decidable (strLt s t) := by
  unfold strLt; infer_instance

instance (s t : String) : Decidable (strLe s t) := by
  unfold strLe; infer_instance

/-- Python's comparison on the stored tuples `(-k, v)`: lexicographic,
integer component first, then the string. -/
def pairLe (a b : Int × String) : Prop :=
  a.1 < b.1 ∨ (a.1 = b.1 ∧ strLe a.2 b.2)

instance (a b : Int × String) : Decidable (pairLe a b) := by
  unfold pairLe; infer_instance

/-- `heapq.heappush(items, x)`: modeled as sorted insertion into the sorted
backing list (the heap's contract: the element is stored, the minimum stays
at index 0). -/
def heappush (x : Int × String) : List (Int × String) → List (Int × String)
  | [] => [x]
  | y :: ys => if pairLe x y then x :: y :: ys else y :: heappush x ys

/-- The state of `MaxHeap` (`max_heap.py`): the backing list `items` and the
cached `top` field (`None` initially, else `self.items[0]`). -/
structure MaxHeap where
  items : List (Int × String)
  top : Option (Int × String)
deriving Repr, DecidableEq

/-- `MaxHeap.__init__`: empty backing list, `top = None`. -/
def MaxHeap.empty : MaxHeap := ⟨[], none⟩

/-- `MaxHeap.push(k, v)`: `heapq.heappush(self.items, (-k, v))` followed by
`self.top = self.items[0]` (the list is nonempty, so indexing succeeds). -/
def MaxHeap.push (h : MaxHeap) (k : Int) (v : String) : MaxHeap :=
  let items := heappush (-k, v) h.items
  ⟨items, items.head?⟩

/-- Outcome of one `MaxHeap.pop()` call: `empty` models `return None`,
`popped s v` models `return (-k, v)` (so `s` is the unnegated score), and
`indexError` models the uncaught `IndexError` raised by
`self.top = self.items[0]` when the pop just emptied the backing list. -/
inductive PopOutcome where
  | empty
  | popped (score : Int) (name : String)
  | indexError
deriving Repr, DecidableEq

/-- `MaxHeap.pop()`: if the backing list is empty, return `None`.  Otherwise
`heapq.heappop` removes the least tuple (the head of the sorted list); then
`self.top = self.items[0]` raises `IndexError` exactly when the remaining
list is empty (the `top` field keeps its stale value in that case). -/
def MaxHeap.pop (h : MaxHeap) : PopOutcome × MaxHeap :=
  match h.items with
  | [] => (PopOutcome.empty, h)
  | [_] => (PopOutcome.indexError, ⟨[], h.top⟩)
  | x :: y :: rest => (PopOutcome.popped (-x.1) x.2, ⟨y :: rest, some y⟩)

/-- `feature_diff(reference_set, other_set)` from `main.py`:
`len(other_set ^ reference_set)`, the symmetric-difference cardinality. -/
def feature_diff (reference_set other_set : Finset String) : Nat :=
  (symmDiff other_set reference_set).card

/-- The reference-profile accumulation inside `compute_scores`: starting from
the empty set, union in `languages[lang]` for each `lang` in `references`
that is a key of the catalog (`if lang in languages`), in order.  The catalog
(a Python dict) is embedded as an association list in insertion order. -/
def ref_features (references : List String)
    (languages : List (String × Finset String)) : Finset String :=
  references.foldl
    (fun acc lang =>
      match languages.lookup lang with
      | some f => acc ∪ f
      | none => acc)
    ∅

/-- `compute_scores(references, languages)` from `main.py`: build the
reference feature set, then push `(feature_diff(ref_features, features),
name)` for every catalog entry, in catalog order, into a fresh `MaxHeap`. -/
def compute_scores (references : List String)
    (languages : List (String × Finset String)) : MaxHeap :=
  let refF := ref_features references languages
  languages.foldl
    (fun res nf => res.push ((feature_diff refF nf.2 : Int)) nf.1)
    MaxHeap.empty

/-- The `while i < limit` loop of `print_scores`: pop; on `None` break; skip
names in `refs` without incrementing `i`; otherwise record the name and
increment `i`.  An `IndexError` raised by `pop` propagates as
`Except.error ()`.  Recorded names accumulate in `acc` (reversed at exit). -/
def topNAux (limit : Nat) (refs : List String) (scores : MaxHeap)
    (i : Nat) (acc : List String) : Except Unit (List String) :=
  if i < limit then
    match hpop : scores.pop with
    | (PopOutcome.empty, _) => Except.ok acc.reverse
    | (PopOutcome.indexError, _) => Except.error ()
    | (PopOutcome.popped _ name, scores') =>
      if name ∈ refs then topNAux limit refs scores' i acc
      else topNAux limit refs scores' (i + 1) (name :: acc)
  else Except.ok acc.reverse
termination_by scores.items.length
decreasing_by
  all_goals
    rcases scores with ⟨items, top⟩
    rcases items with _ | ⟨a, _ | ⟨b, rest⟩⟩ <;> simp_all [MaxHeap.pop]
    rcases hpop with ⟨-, rfl⟩
    exact Nat.lt_succ_self _

/-- `print_scores(scores, limit, refs)` from `main.py`, with the printed
names returned in print order: `limit` defaults to 10 when `None`, then the
while loop above runs from `i = 0` with no names yet accepted. -/
def print_scores (scores : MaxHeap) (limit : Option Nat)
    (refs : List String) : Except Unit (List String) :=
  topNAux (limit.getD 10) refs scores 0 []

/-- Repeatedly pop until a pop stops returning an item; the result is the
final outcome (`empty` if the drain ended with the empty signal,
`indexError` if it ended in the uncaught exception). -/
def drainOutcome (h : MaxHeap) : PopOutcome :=
  match hpop : h.pop with
  | (PopOutcome.popped _ _, h') => drainOutcome h'
  | (PopOutcome.empty, _) => PopOutcome.empty
  | (PopOutcome.indexError, _) => PopOutcome.indexError
termination_by h.items.length
decreasing_by
  rcases h with ⟨items, top⟩
  rcases items with _ | ⟨a, _ | ⟨b, rest⟩⟩ <;> simp_all [MaxHeap.pop]
  rcases hpop with ⟨-, rfl⟩
  exact Nat.lt_succ_self _

/-- Queue states reachable through the public interface: the fresh queue,
and the results of `push` and `pop`. -/
inductive Reachable : MaxHeap → Prop where
  | init : Reachable MaxHeap.empty
  | push {h : MaxHeap} (k : Int) (v : String) :
      Reachable h → Reachable (h.push k v)
  | pop {h : MaxHeap} : Reachable h → Reachable (h.pop).2

/-- The multiset of (unnegated) `(score, name)` pairs currently stored. -/
def MaxHeap.contents (h : MaxHeap) : Multiset (Int × String) :=
  (h.items.map (fun p => (-p.1, p.2)) : List (Int × String))

/-! Basic facts about the tuple order. -/

theorem strLe_total (s t : String) : strLe s t ∨ strLe t s := by
  rcases lt_trichotomy s.data t.data with h | h | h
  · exact Or.inl (Or.inl h)
  · exact Or.inl (Or.inr (congrArg String.mk h))
  · exact Or.inr (Or.inl h)

theorem strLe_trans {s t u : String} (h1 : strLe s t) (h2 : strLe t u) :
    strLe s u := by
  rcases h1 with h1 | rfl
  · rcases h2 with h2 | rfl
    · exact Or.inl (lt_trans h1 h2)
    · exact Or.inl h1
  · exact h2

instance : IsTotal (Int × String) pairLe := by
  constructor
  intro a b
  rcases lt_trichotomy a.1 b.1 with h | h | h
  · exact Or.inl (Or.inl h)
  · rcases strLe_total a.2 b.2 with h2 | h2
    · exact Or.inl (Or.inr ⟨h, h2⟩)
    · exact Or.inr (Or.inr ⟨h.symm, h2⟩)
  · exact Or.inr (Or.inl h)

instance : IsTrans (Int × String) pairLe := by
  constructor
  intro a b c hab hbc
  rcases hab with h1 | ⟨h1, h1'⟩ <;> rcases hbc with h2 | ⟨h2, h2'⟩
  · exact Or.inl (h1.trans h2)
  · exact Or.inl (h2 ▸ h1)
  · exact Or.inl (h1 ▸ h2)
  · exact Or.inr ⟨h1.trans h2, strLe_trans h1' h2'⟩

/-! Heap infrastructure lemmas. -/

theorem heappush_eq_orderedInsert (x : Int × String) (l : List (Int × String)) :
    heappush x l = List.orderedInsert pairLe x l := by
  induction l with
  | nil => rfl
  | cons y ys ih =>
    simp only [heappush, List.orderedInsert, ih]

theorem heappush_perm (x : Int × String) (l : List (Int × String)) :
    List.Perm (heappush x l) (x :: l) := by
  rw [heappush_eq_orderedInsert]
  exact List.perm_orderedInsert pairLe x l

theorem heappush_sorted {l : List (Int × String)} (x : Int × String)
    (hs : List.Sorted pairLe l) : List.Sorted pairLe (heappush x l) := by
  rw [heappush_eq_orderedInsert]
  exact List.Sorted.orderedInsert (r := pairLe) x l hs

theorem push_items (h : MaxHeap) (k : Int) (v : String) :
    (h.push k v).items = heappush (-k, v) h.items := rfl

theorem push_length (h : MaxHeap) (k : Int) (v : String) :
    (h.push k v).items.length = h.items.length + 1 := by
  rw [push_items]
  simpa using (heappush_perm (-k, v) h.items).length_eq

theorem pop_items_nil {h : MaxHeap} (he : h.items = []) :
    h.pop = (PopOutcome.empty, h) := by
  rcases h with ⟨items, t⟩
  simp only at he
  subst he
  rfl

theorem pop_items_single {h : MaxHeap} {x : Int × String} (he : h.items = [x]) :
    h.pop = (PopOutcome.indexError, ⟨[], h.top⟩) := by
  rcases h with ⟨items, t⟩
  simp only at he
  subst he
  rfl

theorem pop_items_cons {h : MaxHeap} {x y : Int × String}
    {rest : List (Int × String)} (he : h.items = x :: y :: rest) :
    h.pop = (PopOutcome.popped (-x.1) x.2, ⟨y :: rest, some y⟩) := by
  rcases h with ⟨items, t⟩
  simp only at he
  subst he
  rfl

theorem pop_popped_length {h h' : MaxHeap} {s : Int} {nm : String}
    (hp : h.pop = (PopOutcome.popped s nm, h')) :
    h'.items.length < h.items.length := by
  rcases hitem : h.items with _ | ⟨x, _ | ⟨y, rest⟩⟩
  · rw [pop_items_nil hitem] at hp
    exact absurd (congrArg Prod.fst hp) (by simp)
  · rw [pop_items_single hitem] at hp
    exact absurd (congrArg Prod.fst hp) (by simp)
  · rw [pop_items_cons hitem] at hp
    have : h' = ⟨y :: rest, some y⟩ := (congrArg Prod.snd hp).symm
    rw [this]
    exact Nat.lt_succ_self _

theorem sorted_push {h : MaxHeap} (hs : List.Sorted pairLe h.items)
    (k : Int) (v : String) : List.Sorted pairLe (h.push k v).items := by
  rw [push_items]
  exact heappush_sorted _ hs

theorem sorted_pop {h : MaxHeap} (hs : List.Sorted pairLe h.items) :
    List.Sorted pairLe ((h.pop).2).items := by
  rcases hitem : h.items with _ | ⟨x, _ | ⟨y, rest⟩⟩
  · rw [pop_items_nil hitem]
    simp [hitem]
  · rw [pop_items_single hitem]
    simp
  · rw [pop_items_cons hitem]
    rw [hitem] at hs
    exact hs.of_cons

theorem reachable_sorted {h : MaxHeap} (hr : Reachable h) :
    List.Sorted pairLe h.items := by
  induction hr with
  | init => simp [MaxHeap.empty]
  | push k v _ ih => exact sorted_push ih k v
  | pop _ ih => exact sorted_pop ih

theorem push_contents (h : MaxHeap) (k : Int) (v : String) :
    (h.push k v).contents = (k, v) ::ₘ h.contents := by
  have hp := (heappush_perm (-k, v) h.items).map (fun p => (-p.1, p.2))
  simp only [MaxHeap.contents, push_items]
  rw [Multiset.coe_eq_coe.mpr hp]
  simp

theorem foldl_push_contents (f : Finset String) :
    ∀ (langs : List (String × Finset String)) (h0 : MaxHeap),
    (langs.foldl
        (fun res nf => res.push ((feature_diff f nf.2 : Int)) nf.1) h0).contents =
      h0.contents +
        ((langs.map fun nf => (((feature_diff f nf.2 : Int)), nf.1) :
          List (Int × String)) : Multiset (Int × String)) := by
  intro langs
  induction langs with
  | nil => simp
  | cons a as ih =>
    intro h0
    simp only [List.foldl_cons, ih, push_contents, List.map_cons]
    rw [← Multiset.cons_coe, Multiset.add_cons, Multiset.cons_add]

theorem ref_features_foldl_mem (languages : List (String × Finset String)) :
    ∀ (references : List String) (acc : Finset String) (x : String),
    (x ∈ references.foldl
        (fun acc lang =>
          match languages.lookup lang with
          | some f => acc ∪ f
          | none => acc) acc ↔
      x ∈ acc ∨ ∃ name ∈ references, ∃ f,
        languages.lookup name = some f ∧ x ∈ f) := by
  intro references
  induction references with
  | nil => simp
  | cons r rs ih =>
    intro acc x
    simp only [List.foldl_cons]
    cases hl : languages.lookup r with
    | none =>
      rw [ih]
      constructor
      · rintro (hx | hx)
        · exact Or.inl hx
        · exact Or.inr (by
            obtain ⟨name, hn, f, hf, hxf⟩ := hx
            exact ⟨name, List.mem_cons_of_mem r hn, f, hf, hxf⟩)
      · rintro (hx | ⟨name, hn, f, hf, hxf⟩)
        · exact Or.inl hx
        · rcases List.mem_cons.mp hn with rfl | hn
          · rw [hl] at hf; cases hf
          · exact Or.inr ⟨name, hn, f, hf, hxf⟩
    | some f0 =>
      rw [ih]
      constructor
      · rintro (hx | hx)
        · rcases Finset.mem_union.mp hx with hx | hx
          · exact Or.inl hx
          · exact Or.inr ⟨r, List.mem_cons_self r rs, f0, hl, hx⟩
        · obtain ⟨name, hn, f, hf, hxf⟩ := hx
          exact Or.inr ⟨name, List.mem_cons_of_mem r hn, f, hf, hxf⟩
      · rintro (hx | ⟨name, hn, f, hf, hxf⟩)
        · exact Or.inl (Finset.mem_union_left _ hx)
        · rcases List.mem_cons.mp hn with rfl | hn
          · rw [hl] at hf
            cases hf
            exact Or.inl (Finset.mem_union_right _ hxf)
          · exact Or.inr ⟨name, hn, f, hf, hxf⟩

/-! Unfolding lemmas for the `print_scores` while loop. -/

theorem topNAux_stop {limit i : Nat} (refs : List String) (scores : MaxHeap)
    (acc : List String) (hi : ¬ i < limit) :
    topNAux limit refs scores i acc = Except.ok acc.reverse := by
  rw [topNAux]
  simp [hi]

theorem topNAux_of_pop_empty {limit i : Nat} {refs : List String}
    {scores scores' : MaxHeap} (acc : List String) (hi : i < limit)
    (hp : scores.pop = (PopOutcome.empty, scores')) :
    topNAux limit refs scores i acc = Except.ok acc.reverse := by
  rw [topNAux]
  simp only [hi, if_true]
  split
  · rfl
  · rename_i heq
    rw [hp] at heq
    cases heq
  · rename_i heq
    rw [hp] at heq
    cases heq

theorem topNAux_of_pop_indexError {limit i : Nat} {refs : List String}
    {scores scores' : MaxHeap} (acc : List String) (hi : i < limit)
    (hp : scores.pop = (PopOutcome.indexError, scores')) :
    topNAux limit refs scores i acc = Except.error () := by
  rw [topNAux]
  simp only [hi, if_true]
  split
  · rename_i heq
    rw [hp] at heq
    cases heq
  · rfl
  · rename_i heq
    rw [hp] at heq
    cases heq

theorem topNAux_of_pop_skip {limit i : Nat} {refs : List String}
    {scores scores' : MaxHeap} {s : Int} {nm : String} (acc : List String)
    (hi : i < limit) (hp : scores.pop = (PopOutcome.popped s nm, scores'))
    (hmem : nm ∈ refs) :
    topNAux limit refs scores i acc = topNAux limit refs scores' i acc := by
  rw [topNAux]
  simp only [hi, if_true]
  split
  · rename_i heq
    rw [hp] at heq
    cases heq
  · rename_i heq
    rw [hp] at heq
    cases heq
  · rename_i heq
    rw [hp] at heq
    cases heq
    simp [hmem]

theorem topNAux_of_pop_accept {limit i : Nat} {refs : List String}
    {scores scores' : MaxHeap} {s : Int} {nm : String} (acc : List String)
    (hi : i < limit) (hp : scores.pop = (PopOutcome.popped s nm, scores'))
    (hmem : nm ∉ refs) :
    topNAux limit refs scores i acc =
      topNAux limit refs scores' (i + 1) (nm :: acc) := by
  rw [topNAux]
  simp only [hi, if_true]
  split
  · rename_i heq
    rw [hp] at heq
    cases heq
  · rename_i heq
    rw [hp] at heq
    cases heq
  · rename_i heq
    rw [hp] at heq
    cases heq
    simp [hmem]

theorem topNAux_ok_not_mem :
    ∀ (n : Nat) (scores : MaxHeap), scores.items.length ≤ n →
    ∀ (limit i : Nat) (refs acc names : List String),
      (∀ a ∈ acc, a ∉ refs) →
      topNAux limit refs scores i acc = Except.ok names →
      ∀ nm ∈ names, nm ∉ refs := by
  intro n
  induction n with
  | zero =>
    intro scores hlen limit i refs acc names hacc heq nm hnm
    have hnil : scores.items = [] := List.length_eq_zero.mp (Nat.le_zero.mp hlen)
    by_cases hi : i < limit
    · rw [topNAux_of_pop_empty acc hi (pop_items_nil hnil)] at heq
      cases heq
      exact hacc nm (List.mem_reverse.mp hnm)
    · rw [topNAux_stop refs scores acc hi] at heq
      cases heq
      exact hacc nm (List.mem_reverse.mp hnm)
  | succ n ih =>
    intro scores hlen limit i refs acc names hacc heq nm hnm
    by_cases hi : i < limit
    · rcases hp : scores.pop with ⟨out, scores'⟩
      cases out with
      | empty =>
        rw [topNAux_of_pop_empty acc hi hp] at heq
        cases heq
        exact hacc nm (List.mem_reverse.mp hnm)
      | indexError =>
        rw [topNAux_of_pop_indexError acc hi hp] at heq
        cases heq
      | popped s nm' =>
        have hlt := pop_popped_length hp
        have hle : scores'.items.length ≤ n := by omega
        by_cases hm : nm' ∈ refs
        · rw [topNAux_of_pop_skip acc hi hp hm] at heq
          exact ih scores' hle limit i refs acc names hacc heq nm hnm
        · rw [topNAux_of_pop_accept acc hi hp hm] at heq
          refine ih scores' hle limit (i + 1) refs (nm' :: acc) names ?_ heq nm hnm
          intro a ha
          rcases List.mem_cons.mp ha with rfl | ha
          · exact hm
          · exact hacc a ha
    · rw [topNAux_stop refs scores acc hi] at heq
      cases heq
      exact hacc nm (List.mem_reverse.mp hnm)

/-! Unfolding lemmas for `drainOutcome`. -/

theorem drainOutcome_of_pop_empty {h h' : MaxHeap}
    (hp : h.pop = (PopOutcome.empty, h')) :
    drainOutcome h = PopOutcome.empty := by
  rw [drainOutcome]
  split
  · rename_i heq
    rw [hp] at heq
    cases heq
  · rfl
  · rename_i heq
    rw [hp] at heq
    cases heq

theorem drainOutcome_of_pop_indexError {h h' : MaxHeap}
    (hp : h.pop = (PopOutcome.indexError, h')) :
    drainOutcome h = PopOutcome.indexError := by
  rw [drainOutcome]
  split
  · rename_i heq
    rw [hp] at heq
    cases heq
  · rename_i heq
    rw [hp] at heq
    cases heq
  · rfl

theorem drainOutcome_of_pop_popped {h h' : MaxHeap} {s : Int} {nm : String}
    (hp : h.pop = (PopOutcome.popped s nm, h')) :
    drainOutcome h = drainOutcome h' := by
  rw [drainOutcome]
  split
  · rename_i heq
    rw [hp] at heq
    cases heq
    rfl
  · rename_i heq
    rw [hp] at heq
    cases heq
  · rename_i heq
    rw [hp] at heq
    cases heq

theorem drain_nonempty_indexError :
    ∀ (n : Nat) (h : MaxHeap), h.items.length ≤ n → h.items ≠ [] →
      drainOutcome h = PopOutcome.indexError := by
  intro n
  induction n with
  | zero =>
    intro h hlen hne
    exact absurd (List.length_eq_zero.mp (Nat.le_zero.mp hlen)) hne
  | succ n ih =>
    intro h hlen hne
    rcases hitem : h.items with _ | ⟨x, _ | ⟨y, rest⟩⟩
    · exact absurd hitem hne
    · exact drainOutcome_of_pop_indexError (pop_items_single hitem)
    · rw [drainOutcome_of_pop_popped (pop_items_cons hitem)]
      have hl : rest.length + 2 ≤ n + 1 := by
        rw [hitem] at hlen
        simpa using hlen
      refine ih _ ?_ (by simp)
      show (y :: rest).length ≤ n
      simp only [List.length_cons]
      omega

/-! Claim theorems. -/

/-- Claim C1: `compute_scores` builds the reference profile as the union of
`catalog[name]` over exactly those reference names that are keys of the
catalog (names absent from the catalog are silently skipped, with no
error), and pushes into a fresh queue, for every catalog entry
`(name, features)`, exactly one pair `(score, name)` with
`score = |features symmetric-difference profile|`. -/
theorem compute_scores_profile_and_pairs
    (references : List String) (languages : List (String × Finset String)) :
    (∀ x : String, x ∈ ref_features references languages ↔
      ∃ name ∈ references, ∃ f, languages.lookup name = some f ∧ x ∈ f)
    ∧ (compute_scores references languages).contents =
        ((languages.map fun nf =>
          (((feature_diff (ref_features references languages) nf.2 : Int)), nf.1) :
            List (Int × String)) : Multiset (Int × String)) := by
  constructor
  · intro x
    have h := ref_features_foldl_mem languages references ∅ x
    simpa [ref_features] using h
  · have h := foldl_push_contents (ref_features references languages) languages
      MaxHeap.empty
    simpa [compute_scores, MaxHeap.contents, MaxHeap.empty] using h

/-- Claim C2 (the code refutes it): after `k = 1` pushes — a single push of
`(0, "A")` into a fresh queue — the first of the `k` pops does not return
the inserted item: the post-pop refresh of `top` indexes the now-empty
backing list and raises `IndexError`. -/
theorem single_push_pop_raises :
    ((MaxHeap.empty.push 0 "A").pop).1 = PopOutcome.indexError := by decide

/-- Claim C3 (the code refutes the pop half): `push` is total and grows the
stored list by one, but `pop` on the reachable one-element queue obtained by
pushing `(5, "X")` raises `IndexError` instead of returning the pair or the
empty signal. -/
theorem push_total_but_pop_raises :
    (∀ (h : MaxHeap) (k : Int) (v : String),
        ((h.push k v).items).length = h.items.length + 1)
    ∧ ((MaxHeap.empty.push 5 "X").pop).1 = PopOutcome.indexError :=
  ⟨push_length, by decide⟩

/-- Claim C4 (the code refutes the `top_n` part): on the three-language
catalog with references `["A", "B"]`, the reference profile and the three
scores are exactly as claimed, but `top_n` with `n = 1` and
`exclude = {"A", "B"}` does not return `["C"]`: its third pop drains the
queue and raises `IndexError`. -/
theorem scenario_two_references :
    ref_features ["A", "B"]
        [("A", ({"functional", "generic"} : Finset String)),
         ("B", ({"imperative", "systems"} : Finset String)),
         ("C", ({"functional", "systems"} : Finset String))] =
      {"functional", "generic", "imperative", "systems"}
    ∧ (compute_scores ["A", "B"]
        [("A", ({"functional", "generic"} : Finset String)),
         ("B", ({"imperative", "systems"} : Finset String)),
         ("C", ({"functional", "systems"} : Finset String))]).contents =
      {((2 : Int), "A"), ((2 : Int), "B"), ((2 : Int), "C")}
    ∧ print_scores
        (compute_scores ["A", "B"]
          [("A", ({"functional", "generic"} : Finset String)),
           ("B", ({"imperative", "systems"} : Finset String)),
           ("C", ({"functional", "systems"} : Finset String))])
        (some 1) ["A", "B"] = Except.error () := by
  refine ⟨by decide, by decide, ?_⟩
  have hq : compute_scores ["A", "B"]
      [("A", ({"functional", "generic"} : Finset String)),
       ("B", ({"imperative", "systems"} : Finset String)),
       ("C", ({"functional", "systems"} : Finset String))] =
      ⟨[(-2, "A"), (-2, "B"), (-2, "C")], some (-2, "A")⟩ := by decide
  rw [hq]
  simp [print_scores, topNAux, MaxHeap.pop]

/-- Claim C5 (the code refutes it): `top_n` is not total on queues produced
by `compute_scores`; on the one-entry catalog `{"A" : {"x"}}` with `n = 1`
and empty exclude set it should return the single eligible name, but its
first pop drains the queue and raises `IndexError`. -/
theorem top_n_drain_raises :
    print_scores (compute_scores [] [("A", ({"x"} : Finset String))])
      (some 1) [] = Except.error () := by
  have hq : compute_scores [] [("A", ({"x"} : Finset String))] =
      ⟨[(-1, "A")], some (-1, "A")⟩ := by decide
  rw [hq]
  simp [print_scores, topNAux, MaxHeap.pop]

/-- Claim C6: whenever the extraction loop returns a list of names, none of
them is a member of the exclude list (membership is exact, case-sensitive
string identity), and a popped excluded name is skipped without advancing
the accepted count `i`. -/
theorem top_n_excludes_refs :
    (∀ (scores : MaxHeap) (limit : Option Nat) (refs names : List String),
        print_scores scores limit refs = Except.ok names →
        ∀ nm ∈ names, nm ∉ refs)
    ∧ ∀ (limit i : Nat) (refs : List String) (scores scores' : MaxHeap)
        (s : Int) (nm : String) (acc : List String),
        i < limit → scores.pop = (PopOutcome.popped s nm, scores') → nm ∈ refs →
        topNAux limit refs scores i acc = topNAux limit refs scores' i acc := by
  constructor
  · intro scores limit refs names hok nm hnm
    exact topNAux_ok_not_mem scores.items.length scores (le_refl _)
      (limit.getD 10) 0 refs [] names (by simp) hok nm hnm
  · intro limit i refs scores scores' s nm acc hi hp hm
    exact topNAux_of_pop_skip acc hi hp hm

/-- Witness for C6: a concrete run that returns names, checked against the
exclude list. -/
theorem top_n_excludes_refs_witness :
    print_scores ((MaxHeap.empty.push 3 "A").push 1 "B") (some 1) ["B"] =
        Except.ok ["A"]
      ∧ ∀ nm ∈ ["A"], nm ∉ (["B"] : List String) := by
  have hok : print_scores ((MaxHeap.empty.push 3 "A").push 1 "B") (some 1) ["B"] =
      Except.ok ["A"] := by
    simp [print_scores, topNAux, MaxHeap.pop, MaxHeap.push, heappush, MaxHeap.empty,
      pairLe, strLe, strLt]
  exact ⟨hok, top_n_excludes_refs.1 _ _ _ _ hok⟩

/-- Claim C7: popping a queue that stores zero items returns the explicit
empty signal (`None`), never an exception; in particular `compute_scores` on
an empty catalog yields a queue whose first pop signals empty. -/
theorem pop_empty_signal :
    (∀ h : MaxHeap, h.items = [] → h.pop = (PopOutcome.empty, h))
    ∧ ∀ references : List String,
        ((compute_scores references []).pop).1 = PopOutcome.empty := by
  constructor
  · intro h he
    exact pop_items_nil he
  · intro refs
    rfl

/-- Witness for C7 at the fresh empty queue. -/
theorem pop_empty_signal_witness :
    MaxHeap.empty.items = []
      ∧ MaxHeap.empty.pop = (PopOutcome.empty, MaxHeap.empty) :=
  ⟨rfl, pop_empty_signal.1 MaxHeap.empty rfl⟩

/-- Claim C8: the distance function is symmetric, vanishes on identical
feature sets, and is non-negative. -/
theorem feature_diff_metric (A B : Finset String) :
    feature_diff A B = feature_diff B A ∧ feature_diff A A = 0
      ∧ 0 ≤ feature_diff A B := by
  refine ⟨?_, ?_, Nat.zero_le _⟩
  · simp [feature_diff, symmDiff_comm]
  · simp [feature_diff]

/-- Claim C9: popping a queue that stores exactly one item raises
`IndexError` (the post-pop refresh of `top` indexes position 0 of the
now-empty backing list), so fully draining any non-empty queue by repeated
pops always ends in this exception, never in the empty signal. -/
theorem pop_singleton_raises :
    (∀ h : MaxHeap, h.items.length = 1 → (h.pop).1 = PopOutcome.indexError)
    ∧ ∀ h : MaxHeap, h.items ≠ [] → drainOutcome h = PopOutcome.indexError := by
  constructor
  · intro h hlen
    rcases hitem : h.items with _ | ⟨x, _ | ⟨y, rest⟩⟩
    · rw [hitem] at hlen
      cases hlen
    · rw [pop_items_single hitem]
    · rw [hitem] at hlen
      simp at hlen
  · intro h hne
    exact drain_nonempty_indexError h.items.length h (le_refl _) hne

/-- Witness for C9 at a concrete one-element queue. -/
theorem pop_singleton_raises_witness :
    (MaxHeap.empty.push 1 "A").items.length = 1
    ∧ ((MaxHeap.empty.push 1 "A").pop).1 = PopOutcome.indexError
    ∧ (MaxHeap.empty.push 1 "A").items ≠ []
    ∧ drainOutcome (MaxHeap.empty.push 1 "A") = PopOutcome.indexError :=
  ⟨by decide, pop_singleton_raises.1 _ (by decide), by decide,
    pop_singleton_raises.2 _ (by decide)⟩

/-- Claim C10: pop tie-breaking is deterministic and lexicographic — on any
reachable queue state in which at least two stored items attain the maximal
score `s`, pop returns the pair `(s, nm)` where `nm` is the
lexicographically least name among the stored items of score `s`, because
the backing heap orders the stored `(-score, name)` tuples by tuple
comparison. -/
theorem pop_tie_lexicographic (h : MaxHeap) (hr : Reachable h) (s : Int)
    (hmax : ∀ p ∈ h.items, -p.1 ≤ s)
    (htwo : 2 ≤ h.items.countP (fun p => p.1 == -s)) :
    ∃ nm : String, (h.pop).1 = PopOutcome.popped s nm
      ∧ (-s, nm) ∈ h.items
      ∧ ∀ p ∈ h.items, p.1 = -s → strLe nm p.2 := by
  have hs := reachable_sorted hr
  have hlen : 2 ≤ h.items.length :=
    le_trans htwo (List.countP_le_length _)
  rcases hitem : h.items with _ | ⟨x, _ | ⟨y, rest⟩⟩
  · rw [hitem] at hlen
    simp at hlen
  · rw [hitem] at hlen
    simp at hlen
  · rw [hitem] at hs hmax htwo
    have hpos : 0 < List.countP (fun p => p.1 == -s) (x :: y :: rest) := by
      omega
    obtain ⟨p0, hp0mem, hp0⟩ := List.countP_pos_iff.mp hpos
    have hp0eq : p0.1 = -s := by simpa using hp0
    have hhead : ∀ p ∈ y :: rest, pairLe x p := (List.sorted_cons.mp hs).1
    have hxge : -s ≤ x.1 := by
      have hx := hmax x (by simp)
      omega
    have hx1 : x.1 = -s := by
      rcases List.mem_cons.mp hp0mem with rfl | hmem
      · omega
      · rcases hhead p0 hmem with hlt | ⟨heq, -⟩
        · omega
        · omega
    refine ⟨x.2, ?_, ?_, ?_⟩
    · rw [pop_items_cons hitem]
      simp [hx1]
    · have hx : x = (-s, x.2) := by
        rcases x with ⟨x1, x2⟩
        simp only at hx1
        rw [hx1]
      rw [← hx]
      exact List.mem_cons_self _ _
    · intro p hpmem hp1
      rcases List.mem_cons.mp hpmem with rfl | hmem
      · exact Or.inr rfl
      · rcases hhead p hmem with hlt | ⟨-, hle⟩
        · omega
        · exact hle

/-- Witness for C10 at a concrete reachable queue with a score tie. -/
theorem pop_tie_lexicographic_witness :
    (∀ p ∈ ((MaxHeap.empty.push 1 "B").push 1 "A").items, -p.1 ≤ (1 : Int))
    ∧ 2 ≤ ((MaxHeap.empty.push 1 "B").push 1 "A").items.countP
        (fun p => p.1 == -(1 : Int))
    ∧ ∃ nm : String,
        (((MaxHeap.empty.push 1 "B").push 1 "A").pop).1 =
          PopOutcome.popped 1 nm
        ∧ (-(1 : Int), nm) ∈ ((MaxHeap.empty.push 1 "B").push 1 "A").items
        ∧ ∀ p ∈ ((MaxHeap.empty.push 1 "B").push 1 "A").items,
            p.1 = -(1 : Int) → strLe nm p.2 :=
  ⟨by decide, by decide,
    pop_tie_lexicographic _
      (Reachable.push 1 "A" (Reachable.push 1 "B" Reachable.init)) 1
      (by decide) (by decide)⟩

end Polyglot
